import Mathlib

/-!
Shallow embedding of the leaderboard simulation and ranking core of the
bounce-runner repository (src/components/BounceRunner/GameOverlay.tsx).

JavaScript numbers are modelled as rationals, Math.random() as an injected
stream of rationals in [0,1) consumed one draw at a time with an explicit
stream index, and the unbounded while-loop drawing fresh usernames is
modelled with explicit fuel, returning none when the fuel is exhausted.
-/

namespace BounceRunner

/-- One leaderboard record, mirroring the LeaderboardEntry interface of
GameOverlay.tsx: a display name, a score and the just-appeared flag. -/
structure LeaderboardEntry where
  username : String
  score : ℚ
  isNew : Bool
deriving DecidableEq, Repr

/-- The ordering used by every sort in GameOverlay.tsx, the JavaScript
comparator (a, b) => b.score - a.score: descending, non-strict, by score. -/
def byScoreDesc (a b : LeaderboardEntry) : Prop := b.score ≤ a.score

instance : DecidableRel byScoreDesc :=
  fun a b => inferInstanceAs (Decidable (b.score ≤ a.score))

instance : IsTotal LeaderboardEntry byScoreDesc := ⟨fun a b => le_total b.score a.score⟩

instance : IsTrans LeaderboardEntry byScoreDesc := ⟨fun _ _ _ h1 h2 => le_trans h2 h1⟩

/-- The sort applied by the code, as a stable sort with the descending
score comparator. -/
def sortDesc (l : List LeaderboardEntry) : List LeaderboardEntry :=
  List.insertionSort byScoreDesc l

/-- Sorted by score in descending (non-strict) order. -/
def sortedDesc (l : List LeaderboardEntry) : Prop := List.Sorted byScoreDesc l

instance : DecidablePred sortedDesc := fun l =>
  inferInstanceAs (Decidable (List.Pairwise byScoreDesc l))

/-- Index into the name pool: Math.floor(u * pool.length). -/
def poolIndex (pool : List String) (u : ℚ) : ℕ := (⌊u * pool.length⌋).toNat

/-- The username-drawing while-loop of generateLeaderboardEntries
(GameOverlay.tsx lines 32-35): repeatedly draw a random pool name until one
is found that is not in the used set. The loop is unbounded in the source;
here it carries fuel and returns none when the fuel runs out. On success it
returns the name and the next unconsumed stream index. -/
def drawName (pool : List String) (rnd : ℕ → ℚ) :
    List String → ℕ → ℕ → Option (String × ℕ)
  | _, _, 0 => none
  | used, i, fuel + 1 =>
    if pool.getD (poolIndex pool (rnd i)) "" ∈ used then
      drawName pool rnd used (i + 1) fuel
    else some (pool.getD (poolIndex pool (rnd i)) "", i + 1)

/-- baseScore of generateLeaderboardEntries: the player score when it
exceeds 100, otherwise 500. -/
def baseScore (ref : ℚ) : ℚ := if ref > 100 then ref else 500

/-- A synthesized score: floor(base + (u - 0.3) * (base * 0.8)), clamped
to a floor of 50 (GameOverlay.tsx lines 39-45). -/
def entryScore (ref u : ℚ) : ℚ :=
  max 50 ((⌊baseScore ref + (u - 3/10) * (baseScore ref * (4/5))⌋ : ℤ) : ℚ)

/-- One generated entry: a drawn name, a synthesized score from the draw u,
and isNew set when the draw v exceeds 0.7 (probability 0.3). -/
def mkEntry (ref : ℚ) (name : String) (u v : ℚ) : LeaderboardEntry :=
  { username := name, score := entryScore ref u, isNew := decide (v > 7/10) }

/-- The generation loop of generateLeaderboardEntries: for each of count
entries, draw a fresh name (drawName), then the score draw, then the isNew
draw, accumulating the used-name set. Returns the entries in generation
order plus the next stream index, or none if a name draw ran out of fuel. -/
def genLoop (pool : List String) (ref : ℚ) (rnd : ℕ → ℚ) (fuel : ℕ) :
    ℕ → ℕ → List String → Option (List LeaderboardEntry × ℕ)
  | 0, i, _ => some ([], i)
  | count + 1, i, used =>
    match drawName pool rnd used i fuel with
    | none => none
    | some (name, i1) =>
      match genLoop pool ref rnd fuel count (i1 + 2) (name :: used) with
      | none => none
      | some (rest, iEnd) =>
        some (mkEntry ref name (rnd i1) (rnd (i1 + 1)) :: rest, iEnd)

/-- generateLeaderboardEntries (GameOverlay.tsx lines 26-51): build 15
entries around the reference score, then sort descending by score. -/
def generateLeaderboardEntries (pool : List String) (ref : ℚ) (rnd : ℕ → ℚ)
    (i fuel : ℕ) : Option (List LeaderboardEntry × ℕ) :=
  match genLoop pool ref rnd fuel 15 i [] with
  | none => none
  | some (es, iEnd) => some (sortDesc es, iEnd)

/-- The live-insert of the update interval (GameOverlay.tsx lines 106-107):
prepend the new entry to the first 14 entries of the prior store, then
sort descending by score. -/
def insertLive (lb : List LeaderboardEntry) (e : LeaderboardEntry) :
    List LeaderboardEntry :=
  sortDesc (e :: lb.take 14)

/-- The player's own entry pushed at GAME_OVER (GameOverlay.tsx lines
78-82): username YOU, the raw score with no clamp, isNew true. -/
def playerEntry (score : ℚ) : LeaderboardEntry :=
  { username := "YOU", score := score, isNew := true }

/-- The GAME_OVER merge (GameOverlay.tsx lines 83-84): append the player
entry to the generated entries and sort descending by score. -/
def mergePlayer (es : List LeaderboardEntry) (score : ℚ) :
    List LeaderboardEntry :=
  sortDesc (es ++ [playerEntry score])

/-- The leaderboard-relevant component state of GameOverlay: the owned
snapshot (leaderboardRef/leaderboard) and the rotation offset
(visibleStartIndex). -/
structure OverlayState where
  leaderboard : List LeaderboardEntry
  visibleStartIndex : ℕ
deriving DecidableEq, Repr

/-- Component-mount state: empty leaderboard, visibleStartIndex 0. -/
def initialState : OverlayState := { leaderboard := [], visibleStartIndex := 0 }

/-- Effect of entering PLAYING (GameOverlay.tsx lines 71-73): reseed the
leaderboard from the player score. visibleStartIndex is not touched. -/
def enterPlaying (pool : List String) (s : OverlayState) (score : ℚ)
    (rnd : ℕ → ℚ) (i fuel : ℕ) : Option (OverlayState × ℕ) :=
  match generateLeaderboardEntries pool score rnd i fuel with
  | none => none
  | some (es, iEnd) =>
    some ({ leaderboard := es, visibleStartIndex := s.visibleStartIndex }, iEnd)

/-- Effect of entering GAME_OVER (GameOverlay.tsx lines 74-87): reseed from
max(score, highScore), then push the player entry and resort.
visibleStartIndex is not touched. -/
def enterGameOver (pool : List String) (s : OverlayState) (score high : ℚ)
    (rnd : ℕ → ℚ) (i fuel : ℕ) : Option (OverlayState × ℕ) :=
  match generateLeaderboardEntries pool (max score high) rnd i fuel with
  | none => none
  | some (es, iEnd) =>
    some ({ leaderboard := mergePlayer es score
          , visibleStartIndex := s.visibleStartIndex }, iEnd)

/-- The entry synthesized by the live-update interval (GameOverlay.tsx
lines 97-104): a pool name (repeats allowed), score floor(score * (0.5 + u))
clamped to 50, isNew true. -/
def tickEntry (pool : List String) (score : ℚ) (rnd : ℕ → ℚ) (i : ℕ) :
    LeaderboardEntry :=
  { username := pool.getD (poolIndex pool (rnd i)) ""
  , score := max 50 ((⌊score * (1/2 + rnd i.succ)⌋ : ℤ) : ℚ)
  , isNew := true }

/-- One tick of the 3000-unit interval (GameOverlay.tsx lines 94-114):
with the first draw above 0.5, synthesize an entry and insertLive it;
then unconditionally advance visibleStartIndex to
(visibleStartIndex + 1) mod max(1, storeSize - 3), the store size being
read after the optional insert. -/
def tick (pool : List String) (s : OverlayState) (score : ℚ) (rnd : ℕ → ℚ)
    (i : ℕ) : OverlayState × ℕ :=
  let step : List LeaderboardEntry × ℕ :=
    if rnd i > 1/2 then
      (insertLive s.leaderboard (tickEntry pool score rnd (i + 1)), i + 3)
    else (s.leaderboard, i + 1)
  ({ leaderboard := step.1
   , visibleStartIndex := (s.visibleStartIndex + 1) % max 1 (step.1.length - 3) }
  , step.2)

/-- The windowStart advance performed by each tick, as a function of the
store size n: (v + 1) mod max(1, n - 3) (GameOverlay.tsx line 113). -/
def windowAdvance (n v : ℕ) : ℕ := (v + 1) % max 1 (n - 3)

/-- The rank scan of the GAME_OVER screen: findIndex of the first entry
with the given username, 1-based (GameOverlay.tsx line 343); none when no
entry matches (the source's findIndex = -1, rank 0, hidden by the
playerRank > 0 guard at line 554). -/
def findRankAux (id : String) : List LeaderboardEntry → ℕ → Option ℕ
  | [], _ => none
  | e :: rest, k => if e.username = id then some k else findRankAux id rest (k + 1)

/-- findRank: 1-based rank of the first entry whose username matches. -/
def findRank (lb : List LeaderboardEntry) (id : String) : Option ℕ :=
  findRankAux id lb 1

/-- A theme/tier record as consumed by the milestone logic: only
unlockScore drives the logic; name stands in for the presentation fields
passed through untouched. -/
structure Theme where
  id : String
  name : String
  unlockScore : ℚ
deriving DecidableEq, Repr

/-- getNextMilestone (GameOverlay.tsx lines 128-135): scan the tier table
in order and return the first tier whose unlockScore strictly exceeds the
best score, together with the remaining distance; null when none does. -/
def getNextMilestone (best : ℚ) : List Theme → Option (Theme × ℚ)
  | [] => none
  | t :: ts =>
    if best < t.unlockScore then some (t, t.unlockScore - best)
    else getNextMilestone best ts

/-! Concrete inputs used by witnesses and counterexamples: a 15-name pool
and random streams laid out so that every name draw of a generation call
hits a fresh pool index (no retries), keeping draw positions aligned at
multiples of 3. -/

/-- A concrete 15-name pool standing in for FICTIONAL_USERNAMES. -/
def cpool : List String :=
  ["A1", "A2", "A3", "A4", "A5", "A6", "A7", "A8", "A9", "A10",
   "A11", "A12", "A13", "A14", "A15"]

/-- A concrete stream: position 45 (a tick's insert coin) returns 3/4;
positions divisible by 3 cycle through the 15 pool indices; all other
positions return 1/2. -/
def crnd (n : ℕ) : ℚ :=
  if n = 45 then 3/4
  else if n % 3 = 0 then (((n / 3) % 15 : ℕ) : ℚ) / 15
  else 1/2

/-- A concrete stream whose score draws are 0 (so every synthetic score is
strictly below the reference score): positions divisible by 3 cycle
through the pool indices, positions congruent to 1 return 0, the rest 1/2. -/
def crnd2 (n : ℕ) : ℚ :=
  if n % 3 = 0 then (((n / 3) % 15 : ℕ) : ℚ) / 15
  else if n % 3 = 1 then 0
  else 1/2

/-- The constantly-zero stream: a degenerate injected random source. -/
def czero (_ : ℕ) : ℚ := 0

/-- A random stream is valid when every draw lies in [0,1), as Math.random
guarantees. -/
def validStream (rnd : ℕ → ℚ) : Prop := ∀ n, 0 ≤ rnd n ∧ rnd n < 1

set_option maxRecDepth 40000
set_option maxHeartbeats 2000000

/-! Helper lemmas about the sort. -/

theorem sortDesc_perm (l : List LeaderboardEntry) : (sortDesc l).Perm l :=
  List.perm_insertionSort byScoreDesc l

theorem sortDesc_sorted (l : List LeaderboardEntry) : sortedDesc (sortDesc l) :=
  List.sorted_insertionSort byScoreDesc l

theorem sortDesc_length (l : List LeaderboardEntry) :
    (sortDesc l).length = l.length :=
  (sortDesc_perm l).length_eq

theorem sorted_head_max {h : LeaderboardEntry} {t : List LeaderboardEntry}
    (hs : sortedDesc (h :: t)) : ∀ x ∈ t, x.score ≤ h.score :=
  fun x hx => List.rel_of_sorted_cons hs x hx

/-! Helper lemmas about the generation loop. -/

theorem genLoop_length (pool : List String) (ref : ℚ) (rnd : ℕ → ℚ) (fuel : ℕ) :
    ∀ count i used es iEnd,
      genLoop pool ref rnd fuel count i used = some (es, iEnd) →
      es.length = count := by
  intro count
  induction count with
  | zero =>
    intro i used es iEnd h
    simp only [genLoop, Option.some.injEq, Prod.mk.injEq] at h
    rw [← h.1]
    rfl
  | succ n ih =>
    intro i used es iEnd h
    rw [genLoop] at h
    split at h
    · exact absurd h (by simp)
    · rename_i name i1 hd
      split at h
      · exact absurd h (by simp)
      · rename_i rest i2 hg
        simp only [Option.some.injEq, Prod.mk.injEq] at h
        rw [← h.1]
        simp [ih (i1 + 2) (name :: used) rest i2 hg]

theorem genLoop_mem (pool : List String) (ref : ℚ) (rnd : ℕ → ℚ) (fuel : ℕ) :
    ∀ count i used es iEnd,
      genLoop pool ref rnd fuel count i used = some (es, iEnd) →
      ∀ e ∈ es, ∃ name j, e = mkEntry ref name (rnd j) (rnd (j + 1)) := by
  intro count
  induction count with
  | zero =>
    intro i used es iEnd h
    simp only [genLoop, Option.some.injEq, Prod.mk.injEq] at h
    rw [← h.1]
    intro e he
    exact absurd he (List.not_mem_nil e)
  | succ n ih =>
    intro i used es iEnd h
    rw [genLoop] at h
    split at h
    · exact absurd h (by simp)
    · rename_i name i1 hd
      split at h
      · exact absurd h (by simp)
      · rename_i rest i2 hg
        simp only [Option.some.injEq, Prod.mk.injEq] at h
        rw [← h.1]
        intro e he
        rcases List.mem_cons.mp he with rfl | hrest
        · exact ⟨name, i1, rfl⟩
        · exact ih (i1 + 2) (name :: used) rest i2 hg e hrest

theorem generate_eq_some {pool : List String} {ref : ℚ} {rnd : ℕ → ℚ}
    {i fuel : ℕ} {es : List LeaderboardEntry} {iEnd : ℕ}
    (h : generateLeaderboardEntries pool ref rnd i fuel = some (es, iEnd)) :
    ∃ raw, genLoop pool ref rnd fuel 15 i [] = some (raw, iEnd) ∧
      es = sortDesc raw := by
  rw [generateLeaderboardEntries] at h
  cases hg : genLoop pool ref rnd fuel 15 i [] with
  | none => rw [hg] at h; exact absurd h (by simp)
  | some q =>
    obtain ⟨raw, i2⟩ := q
    rw [hg] at h
    simp only [Option.some.injEq, Prod.mk.injEq] at h
    exact ⟨raw, by rw [← h.2], h.1.symm⟩

theorem generate_length {pool : List String} {ref : ℚ} {rnd : ℕ → ℚ}
    {i fuel : ℕ} {es : List LeaderboardEntry} {iEnd : ℕ}
    (h : generateLeaderboardEntries pool ref rnd i fuel = some (es, iEnd)) :
    es.length = 15 := by
  obtain ⟨raw, hg, rfl⟩ := generate_eq_some h
  rw [sortDesc_length]
  exact genLoop_length pool ref rnd fuel 15 i [] raw iEnd hg

theorem generate_sorted {pool : List String} {ref : ℚ} {rnd : ℕ → ℚ}
    {i fuel : ℕ} {es : List LeaderboardEntry} {iEnd : ℕ}
    (h : generateLeaderboardEntries pool ref rnd i fuel = some (es, iEnd)) :
    sortedDesc es := by
  obtain ⟨raw, _, rfl⟩ := generate_eq_some h
  exact sortDesc_sorted raw

theorem generate_mem {pool : List String} {ref : ℚ} {rnd : ℕ → ℚ}
    {i fuel : ℕ} {es : List LeaderboardEntry} {iEnd : ℕ}
    (h : generateLeaderboardEntries pool ref rnd i fuel = some (es, iEnd)) :
    ∀ e ∈ es, ∃ name j, e = mkEntry ref name (rnd j) (rnd (j + 1)) := by
  obtain ⟨raw, hg, rfl⟩ := generate_eq_some h
  intro e he
  exact genLoop_mem pool ref rnd fuel 15 i [] raw iEnd hg e
    ((sortDesc_perm raw).mem_iff.mp he)

theorem entryScore_ge (ref u : ℚ) : 50 ≤ entryScore ref u := le_max_left _ _

/-! Helper lemmas about the rank scan. -/

theorem findRankAux_none_iff (id : String) :
    ∀ lb k0, findRankAux id lb k0 = none ↔ ∀ e ∈ lb, e.username ≠ id := by
  intro lb
  induction lb with
  | nil => intro k0; simp [findRankAux]
  | cons e rest ih =>
    intro k0
    rw [findRankAux]
    by_cases he : e.username = id
    · simp [he]
    · simp only [he, if_false, ih (k0 + 1), List.mem_cons]
      constructor
      · rintro h x (rfl | hx)
        · exact he
        · exact h x hx
      · intro h x hx
        exact h x (Or.inr hx)

theorem findRankAux_some_iff (id : String) :
    ∀ lb k0 k, findRankAux id lb k0 = some k ↔
      ∃ pre e post, lb = pre ++ e :: post ∧ e.username = id ∧
        (∀ x ∈ pre, x.username ≠ id) ∧ k = k0 + pre.length := by
  intro lb
  induction lb with
  | nil =>
    intro k0 k
    simp only [findRankAux, List.append_eq_nil]
    constructor
    · intro h; exact absurd h (by simp)
    · rintro ⟨pre, e, post, h, -⟩
      exact absurd h (by simp)
  | cons a rest ih =>
    intro k0 k
    rw [findRankAux]
    by_cases ha : a.username = id
    · simp only [ha, if_true, Option.some.injEq]
      constructor
      · intro h
        exact ⟨[], a, rest, rfl, ha, by simp, by simp [h.symm]⟩
      · rintro ⟨pre, e, post, hdec, heu, hmiss, hk⟩
        cases pre with
        | nil =>
          simp only [List.nil_append, List.cons.injEq] at hdec
          simp [hk]
        | cons p ps =>
          simp only [List.cons_append, List.cons.injEq] at hdec
          exact absurd (hdec.1 ▸ ha) (hmiss p (by simp))
    · simp only [ha, if_false, ih (k0 + 1) k]
      constructor
      · rintro ⟨pre, e, post, hdec, heu, hmiss, hk⟩
        refine ⟨a :: pre, e, post, by simp [hdec], heu, ?_, ?_⟩
        · intro x hx
          rcases List.mem_cons.mp hx with rfl | hx2
          · exact ha
          · exact hmiss x hx2
        · simp only [List.length_cons]
          omega
      · rintro ⟨pre, e, post, hdec, heu, hmiss, hk⟩
        cases pre with
        | nil =>
          simp only [List.nil_append, List.cons.injEq] at hdec
          rw [← hdec.1] at heu
          exact absurd heu ha
        | cons p ps =>
          simp only [List.cons_append, List.cons.injEq] at hdec
          refine ⟨ps, e, post, hdec.2, heu, ?_, ?_⟩
          · intro x hx
            exact hmiss x (List.mem_cons_of_mem p hx)
          · simp only [List.length_cons] at hk
            omega

theorem findRank_none_iff (lb : List LeaderboardEntry) (id : String) :
    findRank lb id = none ↔ ∀ e ∈ lb, e.username ≠ id :=
  findRankAux_none_iff id lb 1

theorem findRank_some_iff (lb : List LeaderboardEntry) (id : String) (k : ℕ) :
    findRank lb id = some k ↔
      ∃ pre e post, lb = pre ++ e :: post ∧ e.username = id ∧
        (∀ x ∈ pre, x.username ≠ id) ∧ k = pre.length + 1 := by
  rw [findRank, findRankAux_some_iff]
  constructor
  · rintro ⟨pre, e, post, hdec, heu, hmiss, hk⟩
    exact ⟨pre, e, post, hdec, heu, hmiss, by omega⟩
  · rintro ⟨pre, e, post, hdec, heu, hmiss, hk⟩
    exact ⟨pre, e, post, hdec, heu, hmiss, by omega⟩

/-! Helper lemmas about the window rotation. -/

theorem windowAdvance_iterate (n v : ℕ) (hv : v < max 1 (n - 3)) :
    ∀ k, (windowAdvance n)^[k] v = (v + k) % max 1 (n - 3) := by
  intro k
  induction k with
  | zero => simpa using (Nat.mod_eq_of_lt hv).symm
  | succ m ih =>
    rw [Function.iterate_succ_apply', ih, windowAdvance, Nat.mod_add_mod]
    congr 1

/-! Helper lemmas about the phase-transition effects. -/

theorem enterPlaying_eq_some {pool : List String} {s : OverlayState} {score : ℚ}
    {rnd : ℕ → ℚ} {i fuel : ℕ} {s2 : OverlayState} {iEnd : ℕ}
    (h : enterPlaying pool s score rnd i fuel = some (s2, iEnd)) :
    ∃ es, generateLeaderboardEntries pool score rnd i fuel = some (es, iEnd) ∧
      s2.leaderboard = es ∧ s2.visibleStartIndex = s.visibleStartIndex := by
  rw [enterPlaying] at h
  split at h
  · exact absurd h (by simp)
  · rename_i es i2 hg
    simp only [Option.some.injEq, Prod.mk.injEq] at h
    exact ⟨es, h.2 ▸ hg, by rw [← h.1], by rw [← h.1]⟩

theorem enterGameOver_eq_some {pool : List String} {s : OverlayState}
    {score high : ℚ} {rnd : ℕ → ℚ} {i fuel : ℕ} {s2 : OverlayState} {iEnd : ℕ}
    (h : enterGameOver pool s score high rnd i fuel = some (s2, iEnd)) :
    ∃ es, generateLeaderboardEntries pool (max score high) rnd i fuel =
        some (es, iEnd) ∧
      s2.leaderboard = mergePlayer es score ∧
      s2.visibleStartIndex = s.visibleStartIndex := by
  rw [enterGameOver] at h
  split at h
  · exact absurd h (by simp)
  · rename_i es i2 hg
    simp only [Option.some.injEq, Prod.mk.injEq] at h
    exact ⟨es, h.2 ▸ hg, by rw [← h.1], by rw [← h.1]⟩

/-! Claim theorems. -/

/-- Claim C2: insertLive produces exactly the descending-by-score sort of
the candidate set made of the new entry plus the first 14 entries of the
prior (pre-insert) order: the result is a permutation of that candidate
set, sorted descending by score, of size min(14, prior) + 1 — hence at
most 15, and exactly 15 when the prior store held 15 entries. -/
theorem insertLive_spec (lb : List LeaderboardEntry) (e : LeaderboardEntry) :
    (insertLive lb e).Perm (e :: lb.take 14) ∧
    sortedDesc (insertLive lb e) ∧
    (insertLive lb e).length = min 14 lb.length + 1 ∧
    (insertLive lb e).length ≤ 15 ∧
    (lb.length = 15 → (insertLive lb e).length = 15) := by
  have hlen : (insertLive lb e).length = min 14 lb.length + 1 := by
    rw [insertLive, sortDesc_length, List.length_cons, List.length_take]
  refine ⟨sortDesc_perm _, sortDesc_sorted _, hlen, by omega, fun h => by omega⟩

/-- A concrete 15-entry store for the C2 witness. -/
def c2lb : List LeaderboardEntry :=
  (List.range 15).map (fun k => { username := "B", score := (k : ℚ), isNew := false })

/-- Witness for C2 at a concrete 15-entry store and a concrete entry. -/
theorem insertLive_spec_witness :
    (insertLive c2lb (playerEntry 7)).length = 15 :=
  (insertLive_spec c2lb (playerEntry 7)).2.2.2.2 (by with_unfolding_all rfl)

/-- Claim C5: each scheduler tick advances windowStart to
(windowStart + 1) mod max(1, storeSize - 3), the store size being read
after the tick's optional insert; and, for a fixed store size n, the
advance returns windowStart to its initial value after exactly
max(1, n - 3) ticks and after no smaller positive number of ticks. -/
theorem windowRotation_period :
    (∀ pool s score rnd i,
       (tick pool s score rnd i).1.visibleStartIndex =
         windowAdvance (tick pool s score rnd i).1.leaderboard.length
           s.visibleStartIndex) ∧
    (∀ n v, v < max 1 (n - 3) →
       (windowAdvance n)^[max 1 (n - 3)] v = v ∧
       ∀ k, 0 < k → k < max 1 (n - 3) → (windowAdvance n)^[k] v ≠ v) := by
  constructor
  · intro pool s score rnd i
    rfl
  · intro n v hv
    constructor
    · rw [windowAdvance_iterate n v hv, Nat.add_mod_right, Nat.mod_eq_of_lt hv]
    · intro k hk0 hkM hiter
      rw [windowAdvance_iterate n v hv] at hiter
      rcases Nat.lt_or_ge (v + k) (max 1 (n - 3)) with hlt | hge
      · rw [Nat.mod_eq_of_lt hlt] at hiter
        omega
      · rw [Nat.mod_eq_sub_mod hge, Nat.mod_eq_of_lt (by omega)] at hiter
        omega

/-- Witness for C5 at store size 15: the period is max(1, 15-3) = 12. -/
theorem windowRotation_period_witness :
    (windowAdvance 15)^[12] 0 = 0 ∧ (windowAdvance 15)^[5] 0 ≠ 0 :=
  ⟨(windowRotation_period.2 15 0 (by decide)).1,
   (windowRotation_period.2 15 0 (by decide)).2 5 (by decide) (by decide)⟩

/-- Claim C8: getNextMilestone returns the first tier whose unlockScore
strictly exceeds the best score, together with
remaining = unlockScore - best, and returns none exactly when the best
score meets or exceeds every tier's threshold (proved for every tier
table, ascending ones in particular). -/
theorem getNextMilestone_spec (best : ℚ) (tiers : List Theme) :
    (getNextMilestone best tiers = none ↔ ∀ t ∈ tiers, t.unlockScore ≤ best) ∧
    (∀ t r, getNextMilestone best tiers = some (t, r) ↔
       ∃ pre post, tiers = pre ++ t :: post ∧
         (∀ x ∈ pre, x.unlockScore ≤ best) ∧ best < t.unlockScore ∧
         r = t.unlockScore - best) := by
  induction tiers with
  | nil =>
    constructor
    · simp [getNextMilestone]
    · intro t r
      constructor
      · intro h
        exact absurd h (by simp [getNextMilestone])
      · rintro ⟨pre, post, hdec, -⟩
        exact absurd hdec (by simp)
  | cons a ts ih =>
    constructor
    · rw [getNextMilestone]
      by_cases hb : best < a.unlockScore
      · rw [if_pos hb]
        constructor
        · intro h
          exact absurd h (by simp)
        · intro h
          exact absurd (h a (List.mem_cons_self a ts)) (not_le.mpr hb)
      · rw [if_neg hb, ih.1]
        push_neg at hb
        constructor
        · rintro h x hx
          rcases List.mem_cons.mp hx with rfl | hx2
          · exact hb
          · exact h x hx2
        · intro h x hx
          exact h x (List.mem_cons_of_mem a hx)
    · intro t r
      rw [getNextMilestone]
      by_cases hb : best < a.unlockScore
      · rw [if_pos hb]
        constructor
        · intro h
          simp only [Option.some.injEq, Prod.mk.injEq] at h
          refine ⟨[], ts, by simp [h.1], by simp, ?_, ?_⟩
          · rw [← h.1]
            exact hb
          · rw [← h.1, ← h.2]
        · rintro ⟨pre, post, hdec, hmiss, ht, hr⟩
          cases pre with
          | nil =>
            simp only [List.nil_append, List.cons.injEq] at hdec
            rw [← hdec.1, hr, ← hdec.1]
          | cons p ps =>
            simp only [List.cons_append, List.cons.injEq] at hdec
            rw [hdec.1] at hb
            exact absurd hb (not_lt.mpr (hmiss p (List.mem_cons_self p ps)))
      · rw [if_neg hb, ih.2 t r]
        push_neg at hb
        constructor
        · rintro ⟨pre, post, hdec, hmiss, ht, hr⟩
          refine ⟨a :: pre, post, by simp [hdec], ?_, ht, hr⟩
          intro x hx
          rcases List.mem_cons.mp hx with rfl | hx2
          · exact hb
          · exact hmiss x hx2
        · rintro ⟨pre, post, hdec, hmiss, ht, hr⟩
          cases pre with
          | nil =>
            simp only [List.nil_append, List.cons.injEq] at hdec
            rw [← hdec.1] at ht
            exact absurd ht (not_lt.mpr hb)
          | cons p ps =>
            simp only [List.cons_append, List.cons.injEq] at hdec
            refine ⟨ps, post, hdec.2, ?_, ht, hr⟩
            intro x hx
            exact hmiss x (List.mem_cons_of_mem p hx)

/-- A concrete 500-threshold tier (Scenario D). -/
def tier500 : Theme := { id := "surge", name := "Surge", unlockScore := 500 }

/-- A concrete 2000-threshold tier (Scenario D). -/
def tier2000 : Theme := { id := "nova", name := "Nova", unlockScore := 2000 }

/-- Witness for C8: Scenario D — best 0 yields the 500 tier with
remaining 500; best 3000 yields none. -/
theorem getNextMilestone_spec_witness :
    getNextMilestone 0 [tier500, tier2000] = some (tier500, 500) ∧
    getNextMilestone 3000 [tier500, tier2000] = none := by
  constructor
  · exact ((getNextMilestone_spec 0 [tier500, tier2000]).2 tier500 500).mpr
      ⟨[], [tier2000], rfl, by simp, by norm_num [tier500], by norm_num [tier500]⟩
  · refine (getNextMilestone_spec 3000 [tier500, tier2000]).1.mpr ?_
    intro t ht
    rcases List.mem_cons.mp ht with rfl | ht2
    · norm_num [tier500]
    · rcases List.mem_cons.mp ht2 with rfl | ht3
      · norm_num [tier2000]
      · exact absurd ht3 (List.not_mem_nil t)

/-- Claim C3: whenever generate(ref, 15) returns (the name-drawing loop
terminating within the fuel), it returns exactly 15 entries in
non-increasing score order, and each entry is built from its own stream
draws: with base = ref if ref > 100 else 500 and variance = base * 0.8,
its score is max(50, floor(base + (u - 0.3) * variance)) for its score
draw u in [0,1), and its isNew flag is set exactly when its independent
follow-up draw exceeds 0.7, the threshold giving probability 0.3. -/
theorem generate_spec (pool : List String) (ref : ℚ) (rnd : ℕ → ℚ)
    (i fuel : ℕ) (es : List LeaderboardEntry) (iEnd : ℕ)
    (hv : validStream rnd)
    (h : generateLeaderboardEntries pool ref rnd i fuel = some (es, iEnd)) :
    es.length = 15 ∧ sortedDesc es ∧
    ∀ e ∈ es, ∃ name j,
      e = mkEntry ref name (rnd j) (rnd (j + 1)) ∧
      0 ≤ rnd j ∧ rnd j < 1 ∧
      e.score =
        max 50 ((⌊baseScore ref + (rnd j - 3/10) * (baseScore ref * (4/5))⌋ : ℤ) : ℚ) ∧
      (e.isNew = true ↔ rnd (j + 1) > 7/10) := by
  refine ⟨generate_length h, generate_sorted h, ?_⟩
  intro e he
  obtain ⟨name, j, hE⟩ := generate_mem h e he
  refine ⟨name, j, hE, (hv j).1, (hv j).2, ?_, ?_⟩
  · rw [hE]
    rfl
  · rw [hE]
    simp [mkEntry]

/-- The stream crnd is a valid Math.random model: every draw is in [0,1). -/
theorem crnd_valid : validStream crnd := by
  intro n
  rw [crnd]
  split
  · norm_num
  · split
    · constructor
      · positivity
      · rw [div_lt_one (by norm_num)]
        exact_mod_cast Nat.mod_lt (n / 3) (by norm_num)
    · norm_num

/-- The concrete result of generate(1000, 15) on the stream crnd. -/
def c3p : List LeaderboardEntry × ℕ :=
  (generateLeaderboardEntries cpool 1000 crnd 0 50).getD ([], 0)

/-- On the stream crnd, generate(1000, 15) succeeds and returns c3p. -/
theorem c3p_eq : generateLeaderboardEntries cpool 1000 crnd 0 50 = some c3p := by
  with_unfolding_all rfl

/-- Witness for C3 at pool cpool, reference score 1000, stream crnd. -/
theorem generate_spec_witness : c3p.1.length = 15 ∧ sortedDesc c3p.1 :=
  ⟨(generate_spec cpool 1000 crnd 0 50 c3p.1 c3p.2 crnd_valid c3p_eq).1,
   (generate_spec cpool 1000 crnd 0 50 c3p.1 c3p.2 crnd_valid c3p_eq).2.1⟩

/-- Claim C6: every snapshot the store owns is sorted by score in
descending (non-strict) order after every operation that creates or
mutates it: the generator's returned snapshot, the result of every live
insert, and the GAME_OVER merged snapshot. -/
theorem snapshot_sorted :
    (∀ pool ref rnd i fuel es iEnd,
       generateLeaderboardEntries pool ref rnd i fuel = some (es, iEnd) →
       sortedDesc es) ∧
    (∀ lb e, sortedDesc (insertLive lb e)) ∧
    (∀ pool s score high rnd i fuel s2 iEnd,
       enterGameOver pool s score high rnd i fuel = some (s2, iEnd) →
       sortedDesc s2.leaderboard) := by
  refine ⟨fun pool ref rnd i fuel es iEnd h => generate_sorted h,
          fun lb e => sortDesc_sorted _,
          fun pool s score high rnd i fuel s2 iEnd h => ?_⟩
  obtain ⟨es, -, hlb, -⟩ := enterGameOver_eq_some h
  rw [hlb, mergePlayer]
  exact sortDesc_sorted _

/-- The concrete GAME_OVER state for the C6 witness (score 800, high 500,
stream crnd2). -/
def c6s : OverlayState × ℕ :=
  (enterGameOver cpool initialState 800 500 crnd2 0 50).getD (initialState, 0)

/-- Witness for C6: the generated snapshot c3p and the merged GAME_OVER
snapshot c6s are sorted descending, as is a concrete live insert. -/
theorem snapshot_sorted_witness :
    sortedDesc c3p.1 ∧ sortedDesc (insertLive c2lb (playerEntry 7)) ∧
    sortedDesc c6s.1.leaderboard :=
  ⟨snapshot_sorted.1 cpool 1000 crnd 0 50 c3p.1 c3p.2 c3p_eq,
   snapshot_sorted.2.1 c2lb (playerEntry 7),
   snapshot_sorted.2.2 cpool initialState 800 500 crnd2 0 50 c6s.1 c6s.2
     (by with_unfolding_all rfl)⟩

/-- Claim C1 (amended): the 50-floor is applied at every place a score is
synthesized — every generated entry and every live-tick entry has score at
least 50, and live inserts preserve the floor — but it is NOT applied to
the player's own entry merged at GAME_OVER, which carries the raw player
score; the post-merge snapshot satisfies the floor only apart from that
player entry. -/
theorem scoreFloor_invariant :
    (∀ pool ref rnd i fuel es iEnd,
       generateLeaderboardEntries pool ref rnd i fuel = some (es, iEnd) →
       ∀ e ∈ es, 50 ≤ e.score) ∧
    (∀ pool score rnd i, 50 ≤ (tickEntry pool score rnd i).score) ∧
    (∀ lb e, (∀ x ∈ lb, 50 ≤ x.score) → 50 ≤ e.score →
       ∀ x ∈ insertLive lb e, 50 ≤ x.score) ∧
    (∀ pool s score high rnd i fuel s2 iEnd,
       enterGameOver pool s score high rnd i fuel = some (s2, iEnd) →
       ∀ x ∈ s2.leaderboard, x = playerEntry score ∨ 50 ≤ x.score) := by
  have hgen : ∀ (pool : List String) (ref : ℚ) (rnd : ℕ → ℚ) (i fuel : ℕ)
      (es : List LeaderboardEntry) (iEnd : ℕ),
      generateLeaderboardEntries pool ref rnd i fuel = some (es, iEnd) →
      ∀ e ∈ es, 50 ≤ e.score := by
    intro pool ref rnd i fuel es iEnd h e he
    obtain ⟨name, j, hE⟩ := generate_mem h e he
    rw [hE]
    exact entryScore_ge ref (rnd j)
  refine ⟨hgen, fun pool score rnd i => le_max_left _ _, ?_, ?_⟩
  · intro lb e hlb he x hx
    have hx2 : x ∈ e :: lb.take 14 := (sortDesc_perm _).mem_iff.mp hx
    rcases List.mem_cons.mp hx2 with rfl | hx3
    · exact he
    · exact hlb x (List.take_subset 14 lb hx3)
  · intro pool s score high rnd i fuel s2 iEnd h x hx
    obtain ⟨es, hg, hlb, -⟩ := enterGameOver_eq_some h
    rw [hlb, mergePlayer] at hx
    have hx2 : x ∈ es ++ [playerEntry score] := (sortDesc_perm _).mem_iff.mp hx
    rcases List.mem_append.mp hx2 with h1 | h2
    · exact Or.inr (hgen pool (max score high) rnd i fuel es iEnd hg x h1)
    · exact Or.inl (by simpa using h2)

/-- Witness for C1 (amended) at concrete inputs. -/
theorem scoreFloor_invariant_witness :
    (∀ e ∈ c3p.1, 50 ≤ e.score) ∧
    (∀ x ∈ c6s.1.leaderboard, x = playerEntry 800 ∨ 50 ≤ x.score) :=
  ⟨scoreFloor_invariant.1 cpool 1000 crnd 0 50 c3p.1 c3p.2 c3p_eq,
   scoreFloor_invariant.2.2.2 cpool initialState 800 500 crnd2 0 50 c6s.1 c6s.2
     (by with_unfolding_all rfl)⟩

/-- The concrete GAME_OVER state reached with playerScore 0, highScore 500
on the stream crnd. -/
def c1s : OverlayState × ℕ :=
  (enterGameOver cpool initialState 0 500 crnd 0 50).getD (initialState, 0)

/-- Claim C1 counterexample: entering GAME_OVER with playerScore 0 and
highScore 500 produces an owned snapshot that contains the player entry
with score 0 < 50 — the 50-floor is not applied to the merged player
entry, so not every entry of every owned snapshot has score at least 50. -/
theorem scoreFloor_counterexample :
    enterGameOver cpool initialState 0 500 crnd 0 50 = some c1s ∧
    playerEntry 0 ∈ c1s.1.leaderboard ∧ (playerEntry 0).score < 50 :=
  ⟨by with_unfolding_all rfl,
   of_decide_eq_true (by with_unfolding_all rfl),
   by norm_num [playerEntry]⟩

/-- Claim C10: the GAME_OVER merged snapshot has exactly 16 entries (the
15 synthetic ones plus the player), contains the player entry with
identifier YOU carrying the raw unclamped player score, and therefore for
any player score below 50 it contains an entry whose score is below 50. -/
theorem gameOverMerge_spec (pool : List String) (s : OverlayState)
    (score high : ℚ) (rnd : ℕ → ℚ) (i fuel : ℕ) (s2 : OverlayState) (iEnd : ℕ)
    (h : enterGameOver pool s score high rnd i fuel = some (s2, iEnd)) :
    s2.leaderboard.length = 16 ∧
    playerEntry score ∈ s2.leaderboard ∧
    (score < 50 → ∃ e ∈ s2.leaderboard, e.score < 50) := by
  obtain ⟨es, hg, hlb, -⟩ := enterGameOver_eq_some h
  have hmem : playerEntry score ∈ s2.leaderboard := by
    rw [hlb, mergePlayer]
    exact (sortDesc_perm _).mem_iff.mpr (by simp)
  refine ⟨?_, hmem, fun hs => ⟨playerEntry score, hmem, hs⟩⟩
  rw [hlb, mergePlayer, sortDesc_length, List.length_append, generate_length hg]
  rfl

/-- The concrete GAME_OVER state reached with playerScore 30, highScore
500 on the stream crnd. -/
def c10s : OverlayState × ℕ :=
  (enterGameOver cpool initialState 30 500 crnd 0 50).getD (initialState, 0)

/-- Witness for C10 at playerScore 30 < 50, highScore 500. -/
theorem gameOverMerge_spec_witness :
    c10s.1.leaderboard.length = 16 ∧
    playerEntry 30 ∈ c10s.1.leaderboard ∧
    ∃ e ∈ c10s.1.leaderboard, e.score < 50 := by
  have h := gameOverMerge_spec cpool initialState 30 500 crnd 0 50 c10s.1 c10s.2
    (by with_unfolding_all rfl)
  exact ⟨h.1, h.2.1, h.2.2 (by norm_num)⟩

/-- Claim C7: findRank returns the 1-based index of the first entry whose
identifier matches, or none when no entry matches; on a post-merge
GAME_OVER snapshot the player entry with a strictly maximal score gets
rank 1; and in general (when no synthetic entry is named YOU) the player's
rank is exactly the position of the player entry in the descending-sorted
merged sequence. -/
theorem findRank_spec :
    (∀ lb id, findRank lb id = none ↔ ∀ e ∈ lb, e.username ≠ id) ∧
    (∀ lb id k, findRank lb id = some k ↔
       ∃ pre e post, lb = pre ++ e :: post ∧ e.username = id ∧
         (∀ x ∈ pre, x.username ≠ id) ∧ k = pre.length + 1) ∧
    (∀ es score, (∀ e ∈ es, e.score < score) →
       findRank (mergePlayer es score) "YOU" = some 1) ∧
    (∀ es score, (∀ e ∈ es, e.username ≠ "YOU") →
       ∃ pre post, mergePlayer es score = pre ++ playerEntry score :: post ∧
         (∀ x ∈ pre, x.username ≠ "YOU") ∧
         findRank (mergePlayer es score) "YOU" = some (pre.length + 1)) := by
  refine ⟨findRank_none_iff, findRank_some_iff, ?_, ?_⟩
  · intro es score hlt
    have hperm := sortDesc_perm (es ++ [playerEntry score])
    have hsorted := sortDesc_sorted (es ++ [playerEntry score])
    have hp : playerEntry score ∈ sortDesc (es ++ [playerEntry score]) :=
      hperm.mem_iff.mpr (by simp)
    rw [mergePlayer]
    cases hml : sortDesc (es ++ [playerEntry score]) with
    | nil =>
      rw [hml] at hp
      exact absurd hp (List.not_mem_nil _)
    | cons hd tl =>
      have hhu : hd.username = "YOU" := by
        have hh : hd ∈ es ++ [playerEntry score] := by
          rw [← hperm.mem_iff, hml]
          exact List.mem_cons_self _ _
        rcases List.mem_append.mp hh with hhe | hhp
        · exfalso
          have h1 : hd.score < score := hlt hd hhe
          rw [hml] at hp hsorted
          rcases List.mem_cons.mp hp with hpe | hpt
          · rw [← hpe] at h1
            simp only [playerEntry] at h1
            exact lt_irrefl score h1
          · have h2 := sorted_head_max hsorted (playerEntry score) hpt
            simp only [playerEntry] at h2
            exact absurd h1 (not_lt.mpr h2)
        · simp only [List.mem_singleton] at hhp
          rw [hhp]
          rfl
      simp [findRank, findRankAux, hhu]
  · intro es score hne
    have hp : playerEntry score ∈ mergePlayer es score := by
      rw [mergePlayer]
      exact (sortDesc_perm _).mem_iff.mpr (by simp)
    have hnn : findRank (mergePlayer es score) "YOU" ≠ none := fun hnone =>
      (findRank_none_iff _ _).mp hnone (playerEntry score) hp rfl
    obtain ⟨k, hk⟩ := Option.ne_none_iff_exists'.mp hnn
    obtain ⟨pre, e, post, hdec, heu, hmiss, hkv⟩ := (findRank_some_iff _ _ _).mp hk
    have he : e = playerEntry score := by
      have hmem0 : e ∈ mergePlayer es score := by
        rw [hdec]
        simp
      rw [mergePlayer] at hmem0
      have hmem : e ∈ es ++ [playerEntry score] := (sortDesc_perm _).mem_iff.mp hmem0
      rcases List.mem_append.mp hmem with h1 | h2
      · exact absurd heu (hne e h1)
      · simpa using h2
    refine ⟨pre, post, ?_, hmiss, ?_⟩
    · rw [← he]
      exact hdec
    · rw [hk, hkv]

/-- The synthetic entries generated at GAME_OVER with playerScore 800,
highScore 500 on crnd2 (whose score draws are 0, so every synthetic score
is 608 < 800). -/
def c7es : List LeaderboardEntry :=
  ((generateLeaderboardEntries cpool 800 crnd2 0 50).getD ([], 0)).1

/-- Witness for C7: on the merged snapshot over c7es, the player (whose
score 800 strictly exceeds every synthetic score) gets rank 1, and the
rank equals the player entry's position in the merged sequence. -/
theorem findRank_spec_witness :
    findRank (mergePlayer c7es 800) "YOU" = some 1 ∧
    ∃ pre post, mergePlayer c7es 800 = pre ++ playerEntry 800 :: post ∧
      (∀ x ∈ pre, x.username ≠ "YOU") ∧
      findRank (mergePlayer c7es 800) "YOU" = some (pre.length + 1) :=
  ⟨findRank_spec.2.2.1 c7es 800 (of_decide_eq_true (by with_unfolding_all rfl)),
   findRank_spec.2.2.2 c7es 800 (of_decide_eq_true (by with_unfolding_all rfl))⟩

/-- Claim C4 (amended): entering PLAYING reseeds the leaderboard via the
generator — 15 entries, sorted descending — but does NOT reset
windowStart: visibleStartIndex is left exactly as the preceding phase
cycle left it (it is 0 only from component mount onward until the first
tick). -/
theorem enterPlaying_spec (pool : List String) (s : OverlayState) (score : ℚ)
    (rnd : ℕ → ℚ) (i fuel : ℕ) (s2 : OverlayState) (iEnd : ℕ)
    (h : enterPlaying pool s score rnd i fuel = some (s2, iEnd)) :
    s2.visibleStartIndex = s.visibleStartIndex ∧
    s2.leaderboard.length = 15 ∧ sortedDesc s2.leaderboard := by
  obtain ⟨es, hg, hlb, hvs⟩ := enterPlaying_eq_some h
  refine ⟨hvs, ?_, ?_⟩
  · rw [hlb]
    exact generate_length hg
  · rw [hlb]
    exact generate_sorted hg

/-- The concrete PLAYING state entered from a state whose rotation offset
is 5. -/
def c4s : OverlayState × ℕ :=
  (enterPlaying cpool { leaderboard := [], visibleStartIndex := 5 } 1000 crnd 0 50).getD
    (initialState, 0)

/-- Witness for C4 (amended): re-entering PLAYING keeps the prior offset 5
while reseeding 15 sorted entries. -/
theorem enterPlaying_spec_witness :
    c4s.1.visibleStartIndex = 5 ∧ c4s.1.leaderboard.length = 15 ∧
    sortedDesc c4s.1.leaderboard :=
  enterPlaying_spec cpool { leaderboard := [], visibleStartIndex := 5 } 1000 crnd
    0 50 c4s.1 c4s.2 (by with_unfolding_all rfl)

/-- The four-step trace refuting the windowStart reset: mount → PLAYING
(seed) → one scheduler tick → GAME_OVER → PLAYING again, on the stream
crnd with playerScore 200 and highScore 100. -/
def c4trace : Option OverlayState :=
  match enterPlaying cpool initialState 200 crnd 0 50 with
  | none => none
  | some (s1, i1) =>
    let t := tick cpool s1 200 crnd i1
    match enterGameOver cpool t.1 200 100 crnd t.2 50 with
    | none => none
    | some (s3, i3) =>
      match enterPlaying cpool s3 200 crnd i3 50 with
      | none => none
      | some (s4, _) => some s4

/-- Claim C4 counterexample: after the cycle mount → Playing → tick →
GameOver → Playing, windowStart is 1, not 0 — entry into the Playing
phase does not reset the rotation offset. -/
theorem windowStartReset_counterexample :
    c4trace.map (fun st => st.visibleStartIndex) = some 1 ∧ (1 : ℕ) ≠ 0 :=
  ⟨by with_unfolding_all rfl, one_ne_zero⟩

/-- On the constantly-zero stream every name draw against a used set
already containing the first pool name loops forever: drawName returns
none for every fuel bound. -/
theorem drawName_czero_stuck (used : List String) (h0 : "A1" ∈ used) :
    ∀ fuel i, drawName cpool czero used i fuel = none := by
  intro fuel
  induction fuel with
  | zero =>
    intro i
    rfl
  | succ n ih =>
    intro i
    rw [drawName,
      show poolIndex cpool (czero i) = 0 from by simp [poolIndex, czero],
      show cpool.getD 0 "" = "A1" from rfl, if_pos h0]
    exact ih (i + 1)

/-- On the constantly-zero stream a successful name draw can only return
the first pool name. -/
theorem drawName_czero_some (used : List String) :
    ∀ fuel i name i1, drawName cpool czero used i fuel = some (name, i1) →
      name = "A1" := by
  intro fuel
  induction fuel with
  | zero =>
    intro i name i1 h
    exact absurd h (by simp [drawName])
  | succ n ih =>
    intro i name i1 h
    rw [drawName,
      show poolIndex cpool (czero i) = 0 from by simp [poolIndex, czero],
      show cpool.getD 0 "" = "A1" from rfl] at h
    by_cases hin : "A1" ∈ used
    · rw [if_pos hin] at h
      exact ih (i + 1) name i1 h
    · rw [if_neg hin] at h
      simp only [Option.some.injEq, Prod.mk.injEq] at h
      exact h.1.symm

/-- The generation loop dies on the constantly-zero stream as soon as the
used set holds the first pool name, for any fuel. -/
theorem genLoop_czero_none (ref : ℚ) (count i fuel : ℕ) (used : List String)
    (h0 : "A1" ∈ used) :
    genLoop cpool ref czero fuel (count + 1) i used = none := by
  rw [genLoop, drawName_czero_stuck used h0 fuel i]

/-- Claim C9 (violated by the code): with the 15-name pool and the
requested count 15 — pool size equal to the count, satisfying the claim's
proviso — the constantly-zero injected source makes the name-drawing loop
redraw the first pool name forever from the second entry on: generation
diverges, returning none for every fuel bound. -/
theorem generate_czero_diverges :
    ∀ fuel, generateLeaderboardEntries cpool 1000 czero 0 fuel = none := by
  intro fuel
  rw [generateLeaderboardEntries, show (15 : ℕ) = 14 + 1 from rfl, genLoop]
  cases hd : drawName cpool czero [] 0 fuel with
  | none => rfl
  | some p =>
    obtain ⟨name, i1⟩ := p
    have hn : name = "A1" := drawName_czero_some [] fuel 0 name i1 hd
    have h2 : genLoop cpool 1000 czero fuel 14 (i1 + 2) (name :: []) = none :=
      genLoop_czero_none 1000 13 (i1 + 2) fuel (name :: [])
        (by rw [hn]; exact List.mem_singleton_self _)
    simp only [h2]

end BounceRunner
